import Mathlib

/-!
# Verification of `node-sync-to-github` (`src/lib/sync.js`, final variant)

Shallow embedding of the sync pipeline of `src/lib/sync.js` (the second,
final variant in the file, lines 371-881): syncing a local flat directory
into a path of a GitHub repository through the git data API.

Modelling conventions:
* JavaScript tree objects `{sha, tree: [...]}` become the structure `GitTree`;
  tree entries `{path, mode, type, sha, ...extra}` become `TreeEntry`, with an
  `extra` field standing for the additional metadata fields (size, url, ...)
  that the store attaches to entries it returns and that `_.pick` discards.
* The remote store (an external collaborator, specified in the spec only by
  its request/response contract) is modelled by `Store` plus the `do...`
  operations below; content addressing is modelled by injective encodings
  (`blobSha`, `treeSha`, `commitSha`).
* Every store *write* is recorded in an event log (`Event`), so that claims
  of the form "no commit call happens" are statements about the log.
* Fallible steps return `Except GitErr`; the promise pipeline becomes
  explicit state passing of `GitState`.
-/

/-- A tree entry as held in a JS tree object: the four canonical fields plus
`extra`, modelling any additional metadata fields attached by the store on
read (discarded by `_.pick(child, ['path', 'mode', 'type', 'sha'])`). -/
structure TreeEntry where
  path : String
  mode : String
  type : String
  sha : String
  extra : List String
deriving Repr, DecidableEq

/-- A tree object `{sha, tree: [...]}` as held by the JS code. The JS field
`tree` (the entry list) is called `entries` here. -/
structure GitTree where
  sha : String
  entries : List TreeEntry
deriving Repr, DecidableEq

/-- A commit object; `tree` models `commit.tree.sha`. -/
structure Commit where
  sha : String
  tree : String
  parents : List String
  message : String
deriving Repr, DecidableEq

/-- A reference record; `sha` models `branch.object.sha`. -/
structure Reference where
  sha : String
deriving Repr, DecidableEq

/-- An error from a store call or a thrown `Error`; `code` models
`error.code` (0 for plain thrown errors), `message` models `error.message`. -/
structure GitErr where
  code : Nat
  message : String
deriving Repr, DecidableEq

/-- `_.pick(child, ['path', 'mode', 'type', 'sha'])`: keep only the four
canonical fields of an entry. -/
def pick (e : TreeEntry) : TreeEntry :=
  { path := e.path, mode := e.mode, type := e.type, sha := e.sha, extra := [] }

/-- `treeChildrenForCreateRequest` (sync.js:714-718): map `_.pick` over the
entry list of a tree. -/
def treeChildrenForCreateRequest (t : GitTree) : List TreeEntry :=
  t.entries.map pick

/-- Stored commit data (keyed by sha in the store). -/
structure CommitData where
  tree : String
  parents : List String
  message : String
deriving Repr, DecidableEq

/-- Association-list lookup for store maps keyed by strings. -/
def lookupA {α : Type} : List (String × α) → String → Option α
  | [], _ => none
  | (k, v) :: r, key => if k = key then some v else lookupA r key

/-- Association-list insert (newest binding shadows older ones). -/
def insertA {α : Type} (l : List (String × α)) (k : String) (v : α) :
    List (String × α) :=
  (k, v) :: l

/-- Modelled from the spec: the remote object store (external collaborator,
spec section 6). Maps from content hash to object content, plus the mutable
branch references and an injectable failure for pull-request creation. -/
structure Store where
  trees : List (String × List TreeEntry)
  commits : List (String × CommitData)
  refs : List (String × String)
  prFail : Option GitErr
deriving Repr, DecidableEq

/-- A store write, as recorded in the event log. Reads are not logged. -/
inductive Event where
  | createBlob (content : String)
  | createTree (request : List (Option TreeEntry))
  | createCommit (message : String) (tree : String) (parents : List String)
  | createReference (ref : String) (sha : String)
  | updateReference (ref : String) (sha : String)
  | createPullRequest (title : String) (body : String) (base : String)
      (head : String)
deriving Repr, DecidableEq

/-- Store plus the log of write calls made so far. -/
structure GitState where
  store : Store
  events : List Event
deriving Repr, DecidableEq

/-- Modelled from the spec: content addressing for blobs — the hash is
determined by the content (spec section 3, "Content addressing"). -/
def blobSha (content : String) : String :=
  "blob(" ++ content ++ ")"

/-- Canonical serialization of one entry, for tree hashing. -/
def entryKey (e : TreeEntry) : String :=
  e.path ++ "," ++ e.mode ++ "," ++ e.type ++ "," ++ e.sha

/-- Modelled from the spec: content addressing for trees — the hash is
determined by the entry list (spec section 3). -/
def treeSha (entries : List TreeEntry) : String :=
  "tree(" ++ ";".intercalate (entries.map entryKey) ++ ")"

/-- Modelled from the spec: content addressing for commits. -/
def commitSha (message tree : String) (parents : List String) : String :=
  "commit(" ++ message ++ "|" ++ tree ++ "|" ++ ";".intercalate parents ++ ")"

/-- Modelled from the spec: `createBlob` store call — returns the content
hash of the blob; logged as a write. -/
def doCreateBlob (content : String) (s : GitState) : String × GitState :=
  (blobSha content,
   { s with events := s.events ++ [.createBlob content] })

/-- Modelled from the spec: `createTree` store call — the request is the raw
JS array (which may hold `null` placeholders); the store creates a tree from
the non-null entries and returns it with its content hash. -/
def doCreateTree (request : List (Option TreeEntry)) (s : GitState) :
    GitTree × GitState :=
  let entries := request.filterMap id
  (⟨treeSha entries, entries⟩,
   { s with
     store := { s.store with
                trees := insertA s.store.trees (treeSha entries) entries },
     events := s.events ++ [.createTree request] })

/-- Modelled from the spec: `createCommit` store call. -/
def doCreateCommit (message tree : String) (parents : List String)
    (s : GitState) : Commit × GitState :=
  let sha := commitSha message tree parents
  (⟨sha, tree, parents, message⟩,
   { s with
     store := { s.store with
                commits := insertA s.store.commits sha ⟨tree, parents, message⟩ },
     events := s.events ++ [.createCommit message tree parents] })

/-- Both `heads/<name>` and `refs/heads/<name>` address the ref stored under
`heads/<name>`: a leading `refs/` (5 characters) is dropped. -/
def normalizeRef (r : String) : String :=
  match r.data with
  | 'r' :: 'e' :: 'f' :: 's' :: '/' :: rest => String.mk rest
  | _ => r

/-- Modelled from the spec: `updateReference` store call — repoint the
branch reference. -/
def doUpdateReference (ref sha : String) (s : GitState) : GitState :=
  { s with
    store := { s.store with refs := insertA s.store.refs (normalizeRef ref) sha },
    events := s.events ++ [.updateReference ref sha] }

/-- Modelled from the spec: `createReference` store call — create a new
reference and return its record. -/
def doCreateReference (ref sha : String) (s : GitState) :
    Reference × GitState :=
  (⟨sha⟩,
   { s with
     store := { s.store with refs := insertA s.store.refs (normalizeRef ref) sha },
     events := s.events ++ [.createReference ref sha] })

/-- Modelled from the spec: `getReference` store read — a missing reference
is the distinguished not-found (404) response (spec section 6). -/
def getReferenceInStore (store : Store) (ref : String) :
    Except GitErr Reference :=
  match lookupA store.refs (normalizeRef ref) with
  | some sha => .ok ⟨sha⟩
  | none => .error ⟨404, "Not Found"⟩

/-- Modelled from the spec: `getCommit` store read. -/
def getCommitInStore (store : Store) (sha : String) : Option Commit :=
  (lookupA store.commits sha).map fun d => ⟨sha, d.tree, d.parents, d.message⟩

/-- Modelled from the spec: `getTree` store read — the returned tree object
carries the sha it was requested under. -/
def getTreeInStore (store : Store) (sha : String) : Option GitTree :=
  (lookupA store.trees sha).map fun entries => ⟨sha, entries⟩

/-- A file of the local flat directory: its name, whether it is a
subdirectory, and (for plain files) its content. -/
structure LocalFile where
  name : String
  isDir : Bool
  content : String
deriving Repr, DecidableEq

/-- The names for which `pathExists[filename] = true` is set in
`createTreeForSingleDir` (sync.js:608): exactly the non-directory filenames,
recorded when their blob is created. -/
def localNames (dir : List LocalFile) : List String :=
  dir.filterMap fun f => if f.isDir then none else some f.name

/-- The tree entry produced for one local plain file (sync.js:609-614). -/
def localEntry (f : LocalFile) : TreeEntry :=
  ⟨f.name, "100644", "blob", blobSha f.content, []⟩

/-- The element the per-file mapping of `createTreeForSingleDir` produces:
`null` for a subdirectory (skipped with a warning), otherwise the blob entry
(sync.js:586-616). -/
def localChildren (dir : List LocalFile) : List (Option TreeEntry) :=
  dir.map fun f => if f.isDir then none else some (localEntry f)

/-- `createTreeForSingleDir` (sync.js:582-629): create one blob per plain
file of the local directory (a `null` placeholder per subdirectory); if a
base tree is supplied, append those of its picked entries whose path was not
created locally; submit the whole array as a tree-creation request. -/
def createTreeForSingleDir (dir : List LocalFile) (baseTree : Option GitTree)
    (s : GitState) : GitTree × GitState :=
  let s1 := (dir.filter (fun f => !f.isDir)).foldl
    (fun acc f => (doCreateBlob f.content acc).2) s
  let children := localChildren dir
  let request := match baseTree with
    | some base =>
        children ++
          ((treeChildrenForCreateRequest base).filter
            (fun child => !(localNames dir).contains child.path)).map some
    | none => children
  doCreateTree request s1

/-- The in-place child update of `createTreeForPath` (sync.js:689-698):
`_.find` the first entry whose path is the segment and overwrite its type,
mode and sha; if none exists, push a fresh entry at the end. -/
def setChildEntry : List TreeEntry → String → String → List TreeEntry
  | [], seg, childSha => [⟨seg, "040000", "tree", childSha, []⟩]
  | e :: es, seg, childSha =>
      if e.path = seg then
        { e with type := "tree", mode := "040000", sha := childSha } :: es
      else
        e :: setChildEntry es seg childSha

/-- Fallback tree for list accesses that cannot occur on the inputs the
callers produce (nonempty chains). -/
def defaultTree : GitTree := ⟨"", []⟩

/-- `createTreeForPath` (sync.js:678-707), with both arrays represented
*reversed* (deepest element first) so that the JS back-of-array operations
become head operations: `slice(-1)[0]` is `head`, `slice(-2)[0]` is the head
of `drop 1` (falling back to the last element for a one-element array),
`slice(0,-2).concat([newTree])` is `newTree :: drop 2`, and `slice(0,-1)` is
`drop 1` of the reversed path parts. -/
def createTreeForPathRev : List GitTree → List String → GitState →
    GitTree × GitState
  | revTrees, [], s => (revTrees.headD defaultTree, s)
  | revTrees, seg :: revParts, s =>
      let lastTree := revTrees.headD defaultTree
      let parentTree := (revTrees.drop 1).headD lastTree
      let newEntries := setChildEntry parentTree.entries seg lastTree.sha
      let (newTree, s') :=
        doCreateTree (newEntries.map fun e => some (pick e)) s
      createTreeForPathRev (newTree :: revTrees.drop 2) revParts s'

/-- `createTreeForPath` on the arrays in source order: fold the last tree of
the chain into its parent at the last path segment, submit the rebuilt
parent, and recurse one level up. -/
def createTreeForPath (treesForPath : List GitTree) (pathParts : List String)
    (s : GitState) : GitTree × GitState :=
  createTreeForPathRev treesForPath.reverse pathParts.reverse s

/-- The `_.find` of `existingTreesForPath` (sync.js:811-813): first entry of
type `tree` whose path is the next segment. -/
def findTreeChild (entries : List TreeEntry) (seg : String) :
    Option TreeEntry :=
  entries.find? fun child => child.type = "tree" && child.path = seg

/-- `existingTreesForPath` (sync.js:800-825): walk the root tree down the
path segments, stopping (without error) at the first segment that has no
tree child; return the chain of trees visited. The JS tree cache is elided
here: a cache hit returns a deep copy of a tree previously fetched under the
same sha, which has the same value as refetching it from the store (object
identity is studied separately in the heap model below). -/
def existingTreesForPath (store : Store) (rootTree : GitTree) :
    List String → Except GitErr (List GitTree)
  | [] => .ok [rootTree]
  | seg :: rest =>
      match findTreeChild rootTree.entries seg with
      | none => .ok [rootTree]
      | some info =>
          match getTreeInStore store info.sha with
          | none => .error ⟨404, "Not Found"⟩
          | some next =>
              match existingTreesForPath store next rest with
              | .error e => .error e
              | .ok sub => .ok (rootTree :: sub)

/-- The validated options of a sync request, after `validateOptions` applied
the defaults. -/
structure OptionsV where
  user : String
  repo : String
  localPath : String
  repoPath : String
  message : String
  branch : String
  baseBranch : String
  createBranch : Bool
  createPullRequest : Bool
  preserveRepoFiles : Bool
deriving Repr, DecidableEq

/-- The ternary `(existingTree && options.preserveRepoFiles) ? existingTree
: null` of `createNewTreeForPath` (sync.js:655). -/
def baseTreeChoice (existingTree : Option GitTree) (preserve : Bool) :
    Option GitTree :=
  match existingTree with
  | some t => if preserve then some t else none
  | none => none

/-- `createNewTreeForPath` (sync.js:643-665): if the resolved chain has one
tree per path part plus the root, splice off the pre-existing leaf; if the
remaining chain has exactly one tree per part (the root included, the leaf
excluded), build the new leaf tree and fold it up the chain; otherwise fail
before creating anything. -/
def createNewTreeForPath (v : OptionsV) (dir : List LocalFile)
    (treesForPath : List GitTree) (pathParts : List String) (s : GitState) :
    Except GitErr GitTree × GitState :=
  let (chain, existingTree) :=
    if treesForPath.length = pathParts.length + 1 then
      (treesForPath.dropLast, treesForPath.getLast?)
    else
      (treesForPath, none)
  if chain.length = pathParts.length then
    let r1 :=
      createTreeForSingleDir dir (baseTreeChoice existingTree v.preserveRepoFiles) s
    let r2 := createTreeForPath (chain ++ [r1.1]) pathParts r1.2
    (.ok r2.1, r2.2)
  else
    (.error ⟨0, "Could not find existing parent dir for repo path: " ++ v.repoPath⟩,
     s)

/-- The raw options object passed to the entry point. A `none` in a
string-typed field models a value that is not a string (absent, or of
another type); `some ""` is the empty string, which JS `||` treats as
falsy when defaulting. -/
structure OptionsIn where
  user : Option String
  repo : Option String
  localPath : Option String
  repoPath : Option String
  message : Option String
  branch : Option String
  baseBranch : Option String
  createBranch : Bool
  createPullRequest : Bool
  preserveRepoFiles : Bool
deriving Repr, DecidableEq

/-- `options.branch = options.branch || 'master'` (sync.js:472-473): default
applied when the value is absent or falsy (the empty string). -/
def jsDefault (o : Option String) : String :=
  match o with
  | none => "master"
  | some b => if b = "" then "master" else b

/-- `validateOptions` (sync.js:471-504): apply the branch defaults, then
require the five string options, then reject `baseBranch == branch` combined
with `createBranch` or with `createPullRequest`. -/
def validateOptions (o : OptionsIn) : Except GitErr OptionsV :=
  let branch := jsDefault o.branch
  let baseBranch := jsDefault o.baseBranch
  match o.user with
  | none => .error ⟨0, "Must pass owner of repo in `user`"⟩
  | some user =>
  match o.repo with
  | none => .error ⟨0, "Must pass repo name in `repo`"⟩
  | some repo =>
  match o.localPath with
  | none => .error ⟨0, "Must pass local path to sync from in `localPath`"⟩
  | some localPath =>
  match o.repoPath with
  | none => .error ⟨0, "Must pass path within repo to sync to in `repoPath`"⟩
  | some repoPath =>
  match o.message with
  | none => .error ⟨0, "Must pass commit message in `message`"⟩
  | some message =>
  if baseBranch = branch ∧ o.createBranch then
    .error ⟨0, "Cannot create `branch` if it is the same as `baseBranch` (" ++
               branch ++ ")"⟩
  else if baseBranch = branch ∧ o.createPullRequest then
    .error ⟨0, "Cannot create pull request when `branch` and `baseBranch` " ++
               "are the same (" ++ branch ++ ")."⟩
  else
    .ok ⟨user, repo, localPath, repoPath, message, branch, baseBranch,
         o.createBranch, o.createPullRequest, o.preserveRepoFiles⟩

/-- `repoPath.split('/')`: divide the character list at every slash; the
accumulator holds the current segment reversed. -/
def splitSlashAux : List Char → List Char → List String
  | [], cur => [String.mk cur.reverse]
  | c :: rest, cur =>
      if c = '/' then String.mk cur.reverse :: splitSlashAux rest []
      else splitSlashAux rest (c :: cur)

/-- `_.compact(options.repoPath.split('/'))` (sync.js:422): split on slashes
and drop the empty (falsy) segments. -/
def pathPartsOf (repoPath : String) : List String :=
  (splitSlashAux repoPath.data []).filter (· ≠ "")

/-- The `.catch` handler of `getBranchOrNull` (sync.js:761-771), applied to
the outcome of the `getReference` call: a 404 becomes `none`, any other
failure is rethrown, a success is passed through. -/
def getBranchOrNull (res : Except GitErr Reference) :
    Except GitErr (Option Reference) :=
  match res with
  | .ok branch => .ok (some branch)
  | .error e => if e.code = 404 then .ok none else .error e

/-- `createBranch` (sync.js:779-786): read `baseBranch`'s reference and
create `refs/heads/<branch>` pointing at the same commit sha. -/
def createBranchFn (branch baseBranch : String) (s : GitState) :
    Except GitErr Reference × GitState :=
  match getReferenceInStore s.store ("heads/" ++ baseBranch) with
  | .error e => (.error e, s)
  | .ok baseRef =>
      let (ref, s') := doCreateReference ("refs/heads/" ++ branch) baseRef.sha s
      (.ok ref, s')

/-- The branch step of `syncToGitHub` (sync.js:430-438): resolve the branch,
create it from `baseBranch` when absent and `createBranch` is set, and fail
when absent otherwise. -/
def resolveBranch (v : OptionsV) (s : GitState) :
    Except GitErr Reference × GitState :=
  match getBranchOrNull (getReferenceInStore s.store ("heads/" ++ v.branch)) with
  | .error e => (.error e, s)
  | .ok (some branch) => (.ok branch, s)
  | .ok none =>
      if v.createBranch then
        createBranchFn v.branch v.baseBranch s
      else
        (.error ⟨0, "Branch `" ++ v.branch ++ "` does not exist"⟩, s)

/-- `commitChanges` (sync.js:729-744): create the commit for the new root
tree with the latest commit as single parent, then repoint the branch
reference at it. -/
def commitChanges (v : OptionsV) (latestCommit : Commit) (newRootTree : GitTree)
    (s : GitState) : GitState :=
  let (newCommit, s1) := doCreateCommit v.message newRootTree.sha [latestCommit.sha] s
  doUpdateReference ("heads/" ++ v.branch) newCommit.sha s1

/-- Substring test modelling the regex test `/already exists/.test(m)`. -/
def hasAlreadyExists (m : String) : Bool :=
  hasAE m.toList
where
  /-- Does the character list contain "already exists" as an infix? -/
  hasAE : List Char → Bool
    | [] => "already exists".toList.isPrefixOf []
    | c :: rest => "already exists".toList.isPrefixOf (c :: rest) || hasAE rest

/-- `createPullRequest` (sync.js:851-876): request a pull request from
`branch` into `baseBranch`, titled with the first line of the commit
message; a failure whose message matches `/already exists/` is swallowed
(logged), any other failure is rethrown. -/
def createPullRequestStep (v : OptionsV) (s : GitState) :
    Except GitErr Unit × GitState :=
  let lines := v.message.splitOn "\n"
  let s' := { s with events := s.events ++
      [.createPullRequest (lines.headD "") ("\n".intercalate (lines.drop 1))
        v.baseBranch v.branch] }
  match s.store.prFail with
  | none => (.ok (), s')
  | some e => if hasAlreadyExists e.message then (.ok (), s') else (.error e, s')

/-- The tail of the `syncToGitHub` pipeline from the root-tree fetch onward
(sync.js:441-458): fetch the root tree, resolve the existing chain, build
the new root, and either skip (no-op) or commit and optionally open a pull
request. -/
def syncCommit (v : OptionsV) (dir : List LocalFile) (commit : Commit)
    (s : GitState) : Except GitErr Unit × GitState :=
  match getTreeInStore s.store commit.tree with
  | none => (.error ⟨404, "Not Found"⟩, s)
  | some rootTree =>
      match existingTreesForPath s.store rootTree (pathPartsOf v.repoPath) with
      | .error e => (.error e, s)
      | .ok treesForPath =>
          match createNewTreeForPath v dir treesForPath (pathPartsOf v.repoPath) s with
          | (.error e, s1) => (.error e, s1)
          | (.ok newRootTree, s1) =>
              if newRootTree.sha = commit.tree then
                (.ok (), s1)
              else
                let s2 := commitChanges v commit newRootTree s1
                if v.createPullRequest then createPullRequestStep v s2
                else (.ok (), s2)

/-- The validated part of `syncToGitHub` (sync.js:428-463): resolve or
create the branch, fetch its latest commit (`getLatestCommit`,
sync.js:751-753), and run the rest of the pipeline. -/
def syncWithOptions (v : OptionsV) (dir : List LocalFile) (s : GitState) :
    Except GitErr Unit × GitState :=
  match resolveBranch v s with
  | (.error e, s') => (.error e, s')
  | (.ok branch, s') =>
      match getCommitInStore s'.store branch.sha with
      | none => (.error ⟨404, "Not Found"⟩, s')
      | some commit => syncCommit v dir commit s'

/-- `syncToGitHub` (sync.js:412-464): validate the options, then run the
pipeline; a validation failure is thrown before any store call. -/
def syncToGitHub (o : OptionsIn) (dir : List LocalFile) (s : GitState) :
    Except GitErr Unit × GitState :=
  match validateOptions o with
  | .error e => (.error e, s)
  | .ok v => syncWithOptions v dir s

/-!
## Heap model of tree objects

Claim C7 is about JS object identity: the tree cache stores *references* to
tree objects, and `createTreeForPath` mutates entry lists in place. The pure
model above cannot see aliasing, so the resolution and rebuild steps are
repeated here over an explicit heap: objects are identified by allocation
index, the cache maps a sha to an object id, a cache hit returns a freshly
allocated deep copy (`_.merge({}, cached)`, sync.js:839), and the rebuild
mutates the parent object in place (sync.js:689-698).
-/

/-- A heap of JS tree objects; the id of an object is its allocation index. -/
structure Heap where
  objs : List GitTree
deriving Repr, DecidableEq

/-- Read the object at an id. -/
def Heap.get (h : Heap) (i : Nat) : GitTree :=
  h.objs.getD i defaultTree

/-- Mutate the object at an id in place. -/
def Heap.set (h : Heap) (i : Nat) (t : GitTree) : Heap :=
  ⟨h.objs.set i t⟩

/-- Allocate a new object, returning its id. -/
def Heap.alloc (h : Heap) (t : GitTree) : Nat × Heap :=
  (h.objs.length, ⟨h.objs ++ [t]⟩)

/-- The tree cache: sha to object id (`treeCache[sha] = tree`). -/
abbrev TreeCache := List (String × Nat)

/-- `getTree` (sync.js:836-844) over the heap: a cache hit allocates a deep
copy of the cached object (`_.merge({}, treeCache[treeSha])`); a miss
fetches from the store into a fresh object. -/
def getTreeH (store : Store) (heap : Heap) (cache : TreeCache) (sha : String) :
    Option (Nat × Heap) :=
  match lookupA cache sha with
  | some i => some (heap.alloc (heap.get i))
  | none =>
      match getTreeInStore store sha with
      | some t => some (heap.alloc t)
      | none => none

/-- `existingTreesForPath` (sync.js:800-825) over the heap: each visited
tree object is inserted into the cache under its sha (`treeCache[
rootTree.sha] = rootTree`) — the cache holds the object itself, not a copy —
and the returned chain holds the same object ids. -/
def existingTreesForPathH (store : Store) :
    Heap → TreeCache → Nat → List String →
    Option (Heap × TreeCache × List Nat)
  | heap, cache, rootId, [] =>
      some (heap, insertA cache (heap.get rootId).sha rootId, [rootId])
  | heap, cache, rootId, seg :: rest =>
      let cache1 := insertA cache (heap.get rootId).sha rootId
      match findTreeChild (heap.get rootId).entries seg with
      | none => some (heap, cache1, [rootId])
      | some info =>
          match getTreeH store heap cache1 info.sha with
          | none => none
          | some (nextId, heap1) =>
              match existingTreesForPathH store heap1 cache1 nextId rest with
              | none => none
              | some (heap2, cache2, sub) => some (heap2, cache2, rootId :: sub)

/-- `createTreeForPath` (sync.js:678-707) over the heap, on reversed arrays
as in `createTreeForPathRev`: the parent *object* is mutated in place
(`parentTree.tree.push(child)`, `child.type = ...`), then the rebuilt entry
list is submitted and the fresh tree allocated. Returns the final heap and
the id of the new root. -/
def createTreeForPathRevH : Heap → List Nat → List String → Heap × Nat
  | heap, revIds, [] => (heap, revIds.headD 0)
  | heap, revIds, seg :: revParts =>
      let lastId := revIds.headD 0
      let parentId := (revIds.drop 1).headD lastId
      let parent := heap.get parentId
      let newEntries := setChildEntry parent.entries seg (heap.get lastId).sha
      let heap1 := heap.set parentId { parent with entries := newEntries }
      let newTreeVal : GitTree :=
        ⟨treeSha (newEntries.map pick), newEntries.map pick⟩
      let (newId, heap2) := heap1.alloc newTreeVal
      createTreeForPathRevH heap2 (newId :: revIds.drop 2) revParts

/-- `createNewTreeForPath` (sync.js:643-665) over the heap: splice off the
pre-existing leaf object when the full path exists, build the new leaf tree
(allocating a fresh object), and rebuild the ancestors in place. -/
def createNewTreeForPathH (preserve : Bool) (dir : List LocalFile)
    (heap : Heap) (chainIds : List Nat) (parts : List String) :
    Option (Heap × Nat) :=
  let (chain, existingId) :=
    if chainIds.length = parts.length + 1 then
      (chainIds.dropLast, chainIds.getLast?)
    else
      (chainIds, none)
  if chain.length = parts.length then
    let base := match existingId with
      | some i => if preserve then some (heap.get i) else none
      | none => none
    let leafVal := (createTreeForSingleDir dir base ⟨⟨[], [], [], none⟩, []⟩).1
    let (leafId, heap1) := heap.alloc leafVal
    some (createTreeForPathRevH heap1 (leafId :: chain.reverse) parts.reverse)
  else
    none

/-! ## Helper lemmas -/

theorem normalizeRef_heads (b : String) :
    normalizeRef ("heads/" ++ b) = "heads/" ++ b := by
  unfold normalizeRef
  have h : ("heads/" ++ b).data = 'h' :: 'e' :: 'a' :: 'd' :: 's' :: '/' :: b.data := by
    simp [String.data_append]
  rw [h]
  rfl

theorem normalizeRef_refs_heads (b : String) :
    normalizeRef ("refs/heads/" ++ b) = "heads/" ++ b := by
  unfold normalizeRef
  have h : ("refs/heads/" ++ b).data =
      'r' :: 'e' :: 'f' :: 's' :: '/' :: ("heads/" ++ b).data := by
    simp [String.data_append]
  rw [h]
  show String.mk ("heads/" ++ b).data = "heads/" ++ b
  rfl

/-- C5: strict parent-exists check. If the resolved chain is shorter than
the path-segment list — some intermediate directory below the target's
parent is missing — `createNewTreeForPath` fails with the path-not-found
error and the state is untouched (no blob or tree has been created); a
successful run is possible only when the chain length is exactly the
segment-list length (parent exists, target absent) or that length plus one
(target exists and is spliced off before the rebuild). -/
theorem createNewTreeForPath_strict (v : OptionsV) (dir : List LocalFile)
    (chain : List GitTree) (parts : List String) (s : GitState) :
    (chain.length < parts.length →
      createNewTreeForPath v dir chain parts s =
        (.error ⟨0, "Could not find existing parent dir for repo path: " ++
          v.repoPath⟩, s)) ∧
    (∀ t s', createNewTreeForPath v dir chain parts s = (.ok t, s') →
      chain.length = parts.length ∨ chain.length = parts.length + 1) := by
  constructor
  · intro hlt
    have h1 : ¬(chain.length = parts.length + 1) := by omega
    have h2 : ¬(chain.length = parts.length) := by omega
    simp only [createNewTreeForPath, if_neg h1, if_neg h2]
  · intro t s' h
    by_cases h1 : chain.length = parts.length + 1
    · right; exact h1
    · by_cases h2 : chain.length = parts.length
      · left; exact h2
      · exfalso
        simp only [createNewTreeForPath, if_neg h1, if_neg h2, Prod.mk.injEq] at h
        exact absurd h.1 (by simp)

/-- C5 witness: a chain `[root]` against two path segments fails with the
path-not-found error without touching the state, at a concrete input. -/
theorem createNewTreeForPath_strict_witness :
    createNewTreeForPath
        ⟨"u", "r", "l", "x/y", "m", "master", "master", false, false, false⟩
        [] [defaultTree] ["x", "y"] ⟨⟨[], [], [], none⟩, []⟩ =
      (.error ⟨0, "Could not find existing parent dir for repo path: x/y"⟩,
       ⟨⟨[], [], [], none⟩, []⟩) := by
  have h := (createNewTreeForPath_strict
    ⟨"u", "r", "l", "x/y", "m", "master", "master", false, false, false⟩
    [] [defaultTree] ["x", "y"] ⟨⟨[], [], [], none⟩, []⟩).1 (by decide)
  simpa using h

/-- C9: pre-flight validation. `validateOptions` throws exactly when one of
`user`, `repo`, `localPath`, `repoPath`, `message` is not a string, or when
`baseBranch` equals `branch` (after both default to `master`) while
`createBranch` or `createPullRequest` is set; and a validation failure makes
`syncToGitHub` fail with the state untouched — before any network call. -/
theorem validateOptions_preflight (o : OptionsIn) (dir : List LocalFile)
    (s : GitState) :
    ((∃ e, validateOptions o = .error e) ↔
      (o.user = none ∨ o.repo = none ∨ o.localPath = none ∨
       o.repoPath = none ∨ o.message = none ∨
       (jsDefault o.baseBranch = jsDefault o.branch ∧
        (o.createBranch = true ∨ o.createPullRequest = true)))) ∧
    (∀ e, validateOptions o = .error e →
      syncToGitHub o dir s = (.error e, s)) := by
  constructor
  · obtain ⟨user, repo, localPath, repoPath, message, branch, baseBranch,
      cb, cpr, prf⟩ := o
    cases user <;> cases repo <;> cases localPath <;> cases repoPath <;>
      cases message <;> simp only [validateOptions] <;> simp <;>
      split_ifs with h1 h2 <;> simp_all
  · intro e he
    simp [syncToGitHub, he]

/-- C9 witness: the concrete options object with `branch = baseBranch =
master` and `createBranch` set is rejected, and the sync makes no store
call on it. -/
theorem validateOptions_preflight_witness :
    (∃ e, validateOptions
        ⟨some "u", some "r", some "l", some "p", some "m", none, none,
         true, false, false⟩ = .error e) ∧
    syncToGitHub
        ⟨some "u", some "r", some "l", some "p", some "m", none, none,
         true, false, false⟩ [] ⟨⟨[], [], [], none⟩, []⟩ =
      (.error ⟨0, "Cannot create `branch` if it is the same as `baseBranch` (master)"⟩,
       ⟨⟨[], [], [], none⟩, []⟩) := by
  have h := validateOptions_preflight
    ⟨some "u", some "r", some "l", some "p", some "m", none, none,
     true, false, false⟩ [] ⟨⟨[], [], [], none⟩, []⟩
  refine ⟨h.1.mpr (by simp [jsDefault]), h.2 _ (by rfl)⟩

/-- C8: pull-request idempotence. The pull-request step always issues the
creation request (title is the first message line, body the rest, base
`baseBranch`, head `branch`); when the store fails with a message matching
`already exists` the failure is swallowed and the step succeeds, and any
other failure propagates verbatim as the step's failure result. -/
theorem createPullRequest_idempotent (v : OptionsV) (s : GitState)
    (e : GitErr) (he : s.store.prFail = some e) :
    (hasAlreadyExists e.message = true →
      createPullRequestStep v s =
        (.ok (), { s with events := s.events ++
          [.createPullRequest ((v.message.splitOn "\n").headD "")
            ("\n".intercalate ((v.message.splitOn "\n").drop 1))
            v.baseBranch v.branch] })) ∧
    (hasAlreadyExists e.message = false →
      createPullRequestStep v s =
        (.error e, { s with events := s.events ++
          [.createPullRequest ((v.message.splitOn "\n").headD "")
            ("\n".intercalate ((v.message.splitOn "\n").drop 1))
            v.baseBranch v.branch] })) := by
  constructor <;> intro h <;> simp [createPullRequestStep, he, h]

/-- C8 witness: with a concrete store failure whose message says a pull
request already exists, the step succeeds; with a distinct concrete failure
it propagates. -/
theorem createPullRequest_idempotent_witness :
    (createPullRequestStep
        ⟨"u", "r", "l", "p", "t\nb", "dev", "master", false, true, false⟩
        ⟨⟨[], [], [], some ⟨422, "a pull request already exists for x"⟩⟩, []⟩).1 =
      .ok () ∧
    (createPullRequestStep
        ⟨"u", "r", "l", "p", "t\nb", "dev", "master", false, true, false⟩
        ⟨⟨[], [], [], some ⟨500, "server error"⟩⟩, []⟩).1 =
      .error ⟨500, "server error"⟩ := by
  constructor
  · have h := (createPullRequest_idempotent
      ⟨"u", "r", "l", "p", "t\nb", "dev", "master", false, true, false⟩
      ⟨⟨[], [], [], some ⟨422, "a pull request already exists for x"⟩⟩, []⟩
      ⟨422, "a pull request already exists for x"⟩ rfl).1 (by decide)
    rw [h]
  · have h := (createPullRequest_idempotent
      ⟨"u", "r", "l", "p", "t\nb", "dev", "master", false, true, false⟩
      ⟨⟨[], [], [], some ⟨500, "server error"⟩⟩, []⟩
      ⟨500, "server error"⟩ rfl).2 (by decide)
    rw [h]

/-- C6: branch resolution and bootstrap. `getBranchOrNull` maps the
`getReference` outcome to `none` exactly on a 404, passes a found reference
through, and propagates every other failure. When the branch is absent from
the store: with `createBranch` set, `resolveBranch` creates
`refs/heads/<branch>` pointing at `baseBranch`'s commit sha, that creation
being the only event (so it precedes any commit); with `createBranch`
unset, it fails with the branch-does-not-exist error and an untouched
state (no write occurs). -/
theorem branch_resolution_bootstrap (res : Except GitErr Reference)
    (v : OptionsV) (s : GitState) (baseSha : String)
    (habsent : lookupA s.store.refs ("heads/" ++ v.branch) = none)
    (hbase : lookupA s.store.refs ("heads/" ++ v.baseBranch) = some baseSha) :
    ((getBranchOrNull res = .ok none ↔ ∃ e, res = .error e ∧ e.code = 404) ∧
     (∀ b, res = .ok b → getBranchOrNull res = .ok (some b)) ∧
     (∀ e, res = .error e → e.code ≠ 404 → getBranchOrNull res = .error e)) ∧
    (v.createBranch = true →
      resolveBranch v s =
        (.ok ⟨baseSha⟩,
         { store := { s.store with
             refs := insertA s.store.refs ("heads/" ++ v.branch) baseSha },
           events := s.events ++
             [.createReference ("refs/heads/" ++ v.branch) baseSha] })) ∧
    (v.createBranch = false →
      resolveBranch v s =
        (.error ⟨0, "Branch `" ++ v.branch ++ "` does not exist"⟩, s)) := by
  refine ⟨⟨?_, ?_, ?_⟩, ?_, ?_⟩
  · cases res with
    | ok b => simp [getBranchOrNull]
    | error e =>
        by_cases h : e.code = 404 <;> simp [getBranchOrNull, h]
  · intro b hb; simp [getBranchOrNull, hb]
  · intro e he h404; simp [getBranchOrNull, he, h404]
  · intro hcb
    simp [resolveBranch, getBranchOrNull, getReferenceInStore,
      normalizeRef_heads, habsent, hbase, hcb, createBranchFn,
      doCreateReference, normalizeRef_refs_heads]
  · intro hcb
    simp [resolveBranch, getBranchOrNull, getReferenceInStore,
      normalizeRef_heads, habsent, hcb]

/-- C6 witness: against a concrete store holding only `master`, resolving an
absent `dev` branch with `createBranch` creates `refs/heads/dev` at
`master`'s commit sha, and without `createBranch` fails leaving the store
untouched. -/
theorem branch_resolution_bootstrap_witness :
    resolveBranch
        ⟨"u", "r", "l", "p", "m", "dev", "master", true, false, false⟩
        ⟨⟨[], [], [("heads/master", "C0")], none⟩, []⟩ =
      (.ok ⟨"C0"⟩,
       ⟨⟨[], [], [("heads/dev", "C0"), ("heads/master", "C0")], none⟩,
        [.createReference "refs/heads/dev" "C0"]⟩) ∧
    resolveBranch
        ⟨"u", "r", "l", "p", "m", "dev", "master", false, false, false⟩
        ⟨⟨[], [], [("heads/master", "C0")], none⟩, []⟩ =
      (.error ⟨0, "Branch `dev` does not exist"⟩,
       ⟨⟨[], [], [("heads/master", "C0")], none⟩, []⟩) := by
  constructor
  · have h := (branch_resolution_bootstrap (.ok ⟨"C0"⟩)
      ⟨"u", "r", "l", "p", "m", "dev", "master", true, false, false⟩
      ⟨⟨[], [], [("heads/master", "C0")], none⟩, []⟩ "C0"
      (by decide) (by decide)).2.1 rfl
    simpa [insertA] using h
  · have h := (branch_resolution_bootstrap (.ok ⟨"C0"⟩)
      ⟨"u", "r", "l", "p", "m", "dev", "master", false, false, false⟩
      ⟨⟨[], [], [("heads/master", "C0")], none⟩, []⟩ "C0"
      (by decide) (by decide)).2.2 rfl
    simpa using h

/-- Is this event one of the two mutations the no-op path must avoid:
`createCommit` or `updateReference`? -/
def Event.isCommitOrRefUpdate : Event → Bool
  | .createCommit _ _ _ => true
  | .updateReference _ _ => true
  | _ => false

theorem foldl_doCreateBlob (l : List LocalFile) : ∀ s : GitState,
    l.foldl (fun acc f => (doCreateBlob f.content acc).2) s =
      { s with events := s.events ++ l.map fun f => Event.createBlob f.content } := by
  induction l with
  | nil => intro s; simp
  | cons f r ih =>
      intro s
      rw [List.foldl_cons, ih]
      simp [doCreateBlob]


/-- The request array `createTreeForSingleDir` submits: the per-file
elements (with `null` placeholders for subdirectories), followed — when a
base tree is given — by its picked entries whose path was not created
locally. -/
def singleDirRequest (dir : List LocalFile) (baseTree : Option GitTree) :
    List (Option TreeEntry) :=
  match baseTree with
  | some base =>
      localChildren dir ++
        ((treeChildrenForCreateRequest base).filter
          (fun child => !(localNames dir).contains child.path)).map some
  | none => localChildren dir

theorem createTreeForSingleDir_eq (dir : List LocalFile)
    (base : Option GitTree) (s : GitState) :
    createTreeForSingleDir dir base s =
      (⟨treeSha ((singleDirRequest dir base).filterMap id),
        (singleDirRequest dir base).filterMap id⟩,
       { store := { s.store with
           trees := insertA s.store.trees
             (treeSha ((singleDirRequest dir base).filterMap id))
             ((singleDirRequest dir base).filterMap id) },
         events := s.events ++
           ((dir.filter (fun f => !f.isDir)).map fun f => Event.createBlob f.content) ++
           [.createTree (singleDirRequest dir base)] }) := by
  cases base <;>
    simp [createTreeForSingleDir, foldl_doCreateBlob, doCreateTree,
      singleDirRequest]

theorem createTreeForSingleDir_refs (dir : List LocalFile)
    (base : Option GitTree) (s : GitState) :
    (createTreeForSingleDir dir base s).2.store.refs = s.store.refs := by
  rw [createTreeForSingleDir_eq]

theorem createTreeForPathRev_refs (revParts : List String) :
    ∀ (revTrees : List GitTree) (s : GitState),
      (createTreeForPathRev revTrees revParts s).2.store.refs = s.store.refs := by
  induction revParts with
  | nil => intro revTrees s; rfl
  | cons seg rest ih =>
      intro revTrees s
      rw [createTreeForPathRev, ih]
      rfl

/-- The second state extends the first state's event log, and only by
events of the snapshot phase (no `createCommit`, no `updateReference`). -/
def snapshotExtends (s s' : GitState) : Prop :=
  ∃ evs, s'.events = s.events ++ evs ∧ ∀ e ∈ evs, e.isCommitOrRefUpdate = false

theorem snapshotExtends_refl (s : GitState) : snapshotExtends s s :=
  ⟨[], by simp, by simp⟩

theorem snapshotExtends_trans {s s' s'' : GitState}
    (h1 : snapshotExtends s s') (h2 : snapshotExtends s' s'') :
    snapshotExtends s s'' := by
  obtain ⟨evs1, he1, ha1⟩ := h1
  obtain ⟨evs2, he2, ha2⟩ := h2
  refine ⟨evs1 ++ evs2, ?_, ?_⟩
  · rw [he2, he1, List.append_assoc]
  · intro e he
    rcases List.mem_append.mp he with h | h
    · exact ha1 e h
    · exact ha2 e h

theorem snapshotExtends_doCreateTree (req : List (Option TreeEntry))
    (s : GitState) : snapshotExtends s (doCreateTree req s).2 :=
  ⟨[.createTree req], by simp [doCreateTree], by
    intro e he
    simp only [List.mem_singleton] at he
    subst he
    rfl⟩

theorem createTreeForPathRev_events (revParts : List String) :
    ∀ (revTrees : List GitTree) (s : GitState),
      snapshotExtends s (createTreeForPathRev revTrees revParts s).2 := by
  induction revParts with
  | nil => intro revTrees s; exact snapshotExtends_refl s
  | cons seg rest ih =>
      intro revTrees s
      rw [createTreeForPathRev]
      simp only [doCreateTree]
      exact snapshotExtends_trans (snapshotExtends_doCreateTree _ s) (ih _ _)

theorem createTreeForSingleDir_events (dir : List LocalFile)
    (base : Option GitTree) (s : GitState) :
    snapshotExtends s (createTreeForSingleDir dir base s).2 := by
  rw [createTreeForSingleDir_eq]
  refine ⟨((dir.filter (fun f => !f.isDir)).map fun f => Event.createBlob f.content) ++
    [.createTree (singleDirRequest dir base)], by simp, ?_⟩
  intro e he
  rcases List.mem_append.mp he with h | h
  · obtain ⟨f, _, rfl⟩ := List.mem_map.mp h
    rfl
  · simp only [List.mem_singleton] at h
    subst h
    rfl

theorem createTreeForPath_refs (trees : List GitTree) (parts : List String)
    (s : GitState) :
    (createTreeForPath trees parts s).2.store.refs = s.store.refs := by
  unfold createTreeForPath
  exact createTreeForPathRev_refs _ _ _

theorem createTreeForPath_events (trees : List GitTree) (parts : List String)
    (s : GitState) :
    snapshotExtends s (createTreeForPath trees parts s).2 := by
  unfold createTreeForPath
  exact createTreeForPathRev_events _ _ _

theorem createNewTreeForPath_frame (v : OptionsV) (dir : List LocalFile)
    (chain : List GitTree) (parts : List String) (s : GitState) :
    (createNewTreeForPath v dir chain parts s).2.store.refs = s.store.refs ∧
    snapshotExtends s (createNewTreeForPath v dir chain parts s).2 := by
  unfold createNewTreeForPath
  by_cases h1 : chain.length = parts.length + 1
  · simp only [if_pos h1]
    by_cases h2 : chain.dropLast.length = parts.length
    · simp only [h2, if_true]
      constructor
      · show (createTreeForPath _ _ _).2.store.refs = s.store.refs
        rw [createTreeForPath_refs, createTreeForSingleDir_refs]
      · show snapshotExtends s (createTreeForPath _ _ _).2
        exact snapshotExtends_trans
          (createTreeForSingleDir_events dir
            (baseTreeChoice chain.getLast? v.preserveRepoFiles) s)
          (createTreeForPath_events _ _ _)
    · simp only [h2, if_false]
      exact ⟨trivial, snapshotExtends_refl s⟩
  · simp only [if_neg h1]
    by_cases h2 : chain.length = parts.length
    · simp only [h2, if_true]
      constructor
      · show (createTreeForPath _ _ _).2.store.refs = s.store.refs
        rw [createTreeForPath_refs, createTreeForSingleDir_refs]
      · show snapshotExtends s (createTreeForPath _ _ _).2
        exact snapshotExtends_trans
          (createTreeForSingleDir_events dir
            (baseTreeChoice none v.preserveRepoFiles) s)
          (createTreeForPath_events _ _ _)
    · simp only [h2, if_false]
      exact ⟨trivial, snapshotExtends_refl s⟩

/-- C3: no-op detection. Whenever the pipeline's newly computed root tree
carries the same hash as the original commit's root tree, `syncCommit`
returns success in exactly the state left by the tree-building phase: no
`createCommit` and no `updateReference` event is ever emitted, and the
branch references — the only mutable entities — are unchanged. -/
theorem noop_detection (v : OptionsV) (dir : List LocalFile) (commit : Commit)
    (s : GitState) (rootTree : GitTree) (chain : List GitTree)
    (newRoot : GitTree) (s1 : GitState)
    (hroot : getTreeInStore s.store commit.tree = some rootTree)
    (hchain : existingTreesForPath s.store rootTree (pathPartsOf v.repoPath) =
      .ok chain)
    (hbuild : createNewTreeForPath v dir chain (pathPartsOf v.repoPath) s =
      (.ok newRoot, s1))
    (hnoop : newRoot.sha = commit.tree) :
    syncCommit v dir commit s = (.ok (), s1) ∧
    s1.store.refs = s.store.refs ∧
    ∃ evs, s1.events = s.events ++ evs ∧
      ∀ e ∈ evs, e.isCommitOrRefUpdate = false := by
  have hframe := createNewTreeForPath_frame v dir chain (pathPartsOf v.repoPath) s
  rw [hbuild] at hframe
  refine ⟨?_, hframe.1, hframe.2⟩
  simp [syncCommit, hroot, hchain, hbuild, hnoop]

/-- Leaf entry of the C3 witness repository. -/
def noopLeafE : TreeEntry := ⟨"f", "100644", "blob", blobSha "1", []⟩

/-- Root entry of the C3 witness repository, pointing at the leaf tree. -/
def noopRootE : TreeEntry := ⟨"a", "040000", "tree", treeSha [noopLeafE], []⟩

/-- Root tree of the C3 witness repository. -/
def noopRootW : GitTree := ⟨treeSha [noopRootE], [noopRootE]⟩

/-- A coherent store for the C3 witness: one commit whose root holds
directory `a` with file `f` of content `1`. -/
def noopSW : GitState :=
  ⟨⟨[(treeSha [noopRootE], [noopRootE]), (treeSha [noopLeafE], [noopLeafE])],
    [("C0", ⟨treeSha [noopRootE], [], "init"⟩)],
    [("heads/master", "C0")], none⟩, []⟩

/-- Validated options of the C3 witness: replace-sync of `a`. -/
def noopV : OptionsV :=
  ⟨"u", "r", "l", "a", "msg", "master", "master", false, false, false⟩

/-- Local directory of the C3 witness: the same file content `1`. -/
def noopDirW : List LocalFile := [⟨"f", false, "1"⟩]

/-- Latest commit of the C3 witness. -/
def noopCommitW : Commit := ⟨"C0", treeSha [noopRootE], [], "init"⟩

/-- The resolved chain of the C3 witness. -/
def noopChainW : List GitTree := [noopRootW, ⟨treeSha [noopLeafE], [noopLeafE]⟩]

/-- The state after the tree-building phase of the C3 witness. -/
def noopS1W : GitState :=
  (createNewTreeForPath noopV noopDirW noopChainW ["a"] noopSW).2

/-- C3 witness: re-syncing identical content completes successfully, stops
in the tree-building state, and leaves the branch references unchanged. -/
theorem noop_detection_witness :
    syncCommit noopV noopDirW noopCommitW noopSW = (.ok (), noopS1W) ∧
    noopS1W.store.refs = noopSW.store.refs := by
  have h := noop_detection noopV noopDirW noopCommitW noopSW noopRootW
    noopChainW noopRootW noopS1W (by rfl) (by rfl) (by rfl) (by rfl)
  exact ⟨h.1, h.2.1⟩

theorem mem_localChildren_filterMap (dir : List LocalFile) (e : TreeEntry) :
    e ∈ (localChildren dir).filterMap id ↔
      ∃ f ∈ dir, f.isDir = false ∧ localEntry f = e := by
  simp only [localChildren, List.filterMap_map, List.mem_filterMap, id_eq]
  constructor
  · rintro ⟨f, hf, hfe⟩
    by_cases hd : f.isDir
    · simp [hd] at hfe
    · simp [hd] at hfe
      exact ⟨f, hf, by simpa using hd, hfe⟩
  · rintro ⟨f, hf, hd, hfe⟩
    exact ⟨f, hf, by simp [hd, hfe]⟩

/-- C2: merge semantics of the snapshot builder. With an existing base tree
supplied (the case `preserveRepoFiles = true` at an existing target), the
new leaf tree's entry set is exactly the entries built from local plain
files together with those picked entries of the base tree whose path is not
locally present; with no base tree (the case `preserveRepoFiles = false`,
which `baseTreeChoice` maps to `none`, or no existing target) it is exactly
the local entries; and any entry at a locally-present path is always the
local version, whatever the base entry's mode was. -/
theorem merge_semantics (dir : List LocalFile) (b : GitTree) (s s' : GitState) :
    (∀ e, e ∈ (createTreeForSingleDir dir (some b) s).1.entries ↔
       ((∃ f ∈ dir, f.isDir = false ∧ localEntry f = e) ∨
        (∃ e₀ ∈ b.entries, pick e₀ = e ∧ e₀.path ∉ localNames dir))) ∧
    (∀ e, e ∈ (createTreeForSingleDir dir none s').1.entries ↔
       ∃ f ∈ dir, f.isDir = false ∧ localEntry f = e) ∧
    (∀ e ∈ (createTreeForSingleDir dir (some b) s).1.entries,
       e.path ∈ localNames dir →
       ∃ f ∈ dir, f.isDir = false ∧ localEntry f = e) ∧
    (∀ t, baseTreeChoice (some t) false = none) ∧
    (∀ p, baseTreeChoice none p = none) := by
  have hsome : (createTreeForSingleDir dir (some b) s).1.entries =
      (localChildren dir).filterMap id ++
        (treeChildrenForCreateRequest b).filter
          (fun c => !(localNames dir).contains c.path) := by
    rw [createTreeForSingleDir_eq]
    simp [singleDirRequest, List.filterMap_append, List.filterMap_map]
  have hnone : (createTreeForSingleDir dir none s').1.entries =
      (localChildren dir).filterMap id := by
    rw [createTreeForSingleDir_eq]
    simp [singleDirRequest]
  refine ⟨?_, ?_, ?_, fun t => rfl, fun p => rfl⟩
  · intro e
    rw [hsome, List.mem_append, mem_localChildren_filterMap]
    constructor
    · rintro (h | h)
      · exact Or.inl h
      · rw [List.mem_filter] at h
        obtain ⟨hmem, hpath⟩ := h
        obtain ⟨e₀, he₀, rfl⟩ := List.mem_map.mp hmem
        refine Or.inr ⟨e₀, he₀, rfl, ?_⟩
        simpa [pick] using hpath
    · rintro (h | h)
      · exact Or.inl h
      · obtain ⟨e₀, he₀, rfl, hpath⟩ := h
        refine Or.inr (List.mem_filter.mpr ⟨List.mem_map.mpr ⟨e₀, he₀, rfl⟩, ?_⟩)
        simpa [pick] using hpath
  · intro e
    rw [hnone, mem_localChildren_filterMap]
  · intro e he hpath
    rw [hsome, List.mem_append] at he
    rcases he with h | h
    · exact (mem_localChildren_filterMap dir e).mp h
    · exfalso
      rw [List.mem_filter] at h
      obtain ⟨hmem, hp⟩ := h
      obtain ⟨e₀, he₀, rfl⟩ := List.mem_map.mp hmem
      simp [pick] at hp hpath
      exact hp hpath

/-- C2 witness: with local files `a.txt`, `b.txt` and an existing tree
holding `c.txt` and a stale `a.txt`, the preserved `c.txt` entry is in the
merged leaf tree. -/
theorem merge_semantics_witness :
    (⟨"c.txt", "100644", "blob", "S", []⟩ : TreeEntry) ∈
      (createTreeForSingleDir
        [⟨"a.txt", false, "1"⟩, ⟨"b.txt", false, "2"⟩]
        (some ⟨"B", [⟨"c.txt", "100644", "blob", "S", ["size:9"]⟩,
                     ⟨"a.txt", "100644", "blob", "OLD", []⟩]⟩)
        ⟨⟨[], [], [], none⟩, []⟩).1.entries := by
  refine ((merge_semantics
    [⟨"a.txt", false, "1"⟩, ⟨"b.txt", false, "2"⟩]
    ⟨"B", [⟨"c.txt", "100644", "blob", "S", ["size:9"]⟩,
           ⟨"a.txt", "100644", "blob", "OLD", []⟩]⟩
    ⟨⟨[], [], [], none⟩, []⟩ ⟨⟨[], [], [], none⟩, []⟩).1 _).mpr ?_
  exact Or.inr ⟨⟨"c.txt", "100644", "blob", "S", ["size:9"]⟩, by decide, by decide,
    by decide⟩

/-- C10: skipped subdirectories leave `null` placeholders. A subdirectory at
position `i` of the local listing is mapped to a `null` element that is
still at position `i` of the array submitted in the tree-creation request
(the event shows the submitted array), and — since only blob creation marks
a name as locally present — a base-tree entry sharing the subdirectory's
name survives into the merged leaf tree. -/
theorem subdir_null_placeholders (dir : List LocalFile) (base : GitTree)
    (s : GitState) (i : Nat) (f : LocalFile)
    (hi : dir[i]? = some f) (hdir : f.isDir = true) :
    (createTreeForSingleDir dir (some base) s).2.events =
      s.events ++
        ((dir.filter (fun g => !g.isDir)).map fun g => Event.createBlob g.content) ++
        [.createTree (singleDirRequest dir (some base))] ∧
    (singleDirRequest dir (some base))[i]? = some none ∧
    (∀ e₀ ∈ base.entries, e₀.path = f.name →
      (∀ g ∈ dir, g.name = f.name → g.isDir = true) →
      pick e₀ ∈ (createTreeForSingleDir dir (some base) s).1.entries) := by
  have hlen : i < dir.length := by
    by_contra h
    rw [List.getElem?_eq_none (by omega)] at hi
    exact Option.noConfusion hi
  refine ⟨by rw [createTreeForSingleDir_eq], ?_, ?_⟩
  · have hleft : (localChildren dir)[i]? = some none := by
      rw [localChildren, List.getElem?_map, hi]
      simp [hdir]
    rw [singleDirRequest]
    rw [List.getElem?_append_left (by simpa [localChildren] using hlen)]
    exact hleft
  · intro e₀ he₀ hpath hall
    have hnotlocal : f.name ∉ localNames dir := by
      intro hmem
      obtain ⟨g, hg, hge⟩ := List.mem_filterMap.mp hmem
      by_cases hgd : g.isDir
      · simp [hgd] at hge
      · simp [hgd] at hge
        exact hgd (by simp [hall g hg hge])
    rw [createTreeForSingleDir_eq]
    show pick e₀ ∈ (singleDirRequest dir (some base)).filterMap id
    rw [singleDirRequest]
    rw [List.filterMap_append]
    refine List.mem_append.mpr (Or.inr ?_)
    rw [List.filterMap_map]
    simp only [Function.comp_def, id_eq, List.filterMap_some]
    refine List.mem_filter.mpr ⟨List.mem_map.mpr ⟨e₀, he₀, rfl⟩, ?_⟩
    simp only [pick, Bool.not_eq_true']
    rw [← Bool.not_eq_true]
    intro hc
    exact hnotlocal (by rw [← hpath]; simpa using hc)

/-- C10 witness: a concrete listing with subdirectory `sub` at position 0
yields `null` at position 0 of the submitted array, and the remote `sub`
entry survives the merge. -/
theorem subdir_null_placeholders_witness :
    (singleDirRequest [⟨"sub", true, ""⟩, ⟨"x", false, "1"⟩]
       (some ⟨"B", [⟨"sub", "040000", "tree", "T", []⟩]⟩))[0]? = some none ∧
    pick ⟨"sub", "040000", "tree", "T", []⟩ ∈
      (createTreeForSingleDir [⟨"sub", true, ""⟩, ⟨"x", false, "1"⟩]
        (some ⟨"B", [⟨"sub", "040000", "tree", "T", []⟩]⟩)
        ⟨⟨[], [], [], none⟩, []⟩).1.entries := by
  have h := subdir_null_placeholders [⟨"sub", true, ""⟩, ⟨"x", false, "1"⟩]
    ⟨"B", [⟨"sub", "040000", "tree", "T", []⟩]⟩ ⟨⟨[], [], [], none⟩, []⟩
    0 ⟨"sub", true, ""⟩ rfl rfl
  exact ⟨h.2.1, h.2.2 ⟨"sub", "040000", "tree", "T", []⟩ (by decide) rfl
    (by decide)⟩


theorem existingTreesForPath_spec (store : Store) :
    ∀ (parts : List String) (root : GitTree) (chain : List GitTree),
      existingTreesForPath store root parts = .ok chain →
      1 ≤ chain.length ∧ chain.length ≤ parts.length + 1 ∧
      chain.head? = some root ∧
      (∀ i t t' seg, chain[i]? = some t → chain[i + 1]? = some t' →
        parts[i]? = some seg →
        ∃ e ∈ t.entries, e.type = "tree" ∧ e.path = seg ∧
          getTreeInStore store e.sha = some t') ∧
      (∀ lastT seg, chain.length ≤ parts.length →
        chain.getLast? = some lastT → parts[chain.length - 1]? = some seg →
        findTreeChild lastT.entries seg = none) := by
  intro parts
  induction parts with
  | nil =>
      intro root chain h
      simp only [existingTreesForPath, Except.ok.injEq] at h
      subst h
      refine ⟨by simp, by simp, by simp, ?_, ?_⟩
      · intro i t t' seg _ h2 _
        simp at h2
      · intro lastT seg hlen _ _
        simp at hlen
  | cons seg0 rest ih =>
      intro root chain h
      rw [existingTreesForPath] at h
      cases hf : findTreeChild root.entries seg0 with
      | none =>
          rw [hf] at h
          simp only [Except.ok.injEq] at h
          subst h
          refine ⟨by simp, by simp, by simp, ?_, ?_⟩
          · intro i t t' seg _ h2 _
            simp at h2
          · intro lastT seg _ hlast hseg
            simp only [List.length_singleton, List.getLast?_singleton,
              Option.some.injEq] at hlast
            simp only [List.length_singleton, Nat.sub_self,
              List.getElem?_cons_zero, Option.some.injEq] at hseg
            subst hlast
            subst hseg
            exact hf
      | some info =>
          simp only [hf] at h
          cases hg : getTreeInStore store info.sha with
          | none => simp [hg] at h
          | some next =>
              simp only [hg] at h
              cases hrec : existingTreesForPath store next rest with
              | error e => simp [hrec] at h
              | ok sub =>
                  simp only [hrec, Except.ok.injEq] at h
                  subst h
                  obtain ⟨hlen1, hlen2, hhead, hadj, hstop⟩ := ih next sub hrec
                  have hinfo : info.type = "tree" ∧ info.path = seg0 := by
                    have hp := List.find?_some hf
                    simpa [Bool.and_eq_true, decide_eq_true_eq] using hp
                  have hmem := List.mem_of_find?_eq_some hf
                  cases sub with
                  | nil => simp at hhead
                  | cons b bs =>
                      simp only [List.head?_cons, Option.some.injEq] at hhead
                      subst hhead
                      refine ⟨by simp, ?_, by simp, ?_, ?_⟩
                      · simp only [List.length_cons]
                        simp only [List.length_cons] at hlen2
                        omega
                      · intro i t t' seg h1 h2 h3
                        cases i with
                        | zero =>
                            simp only [List.getElem?_cons_zero,
                              Option.some.injEq] at h1 h3
                            subst h1
                            subst h3
                            have h2' : b = t' := by
                              simpa using h2
                            subst h2'
                            exact ⟨info, hmem, hinfo.1, hinfo.2, hg⟩
                        | succ j =>
                            exact hadj j t t' seg (by simpa using h1)
                              (by simpa using h2) (by simpa using h3)
                      · intro lastT seg hlen hlast hseg
                        have hlast' : (b :: bs).getLast? = some lastT := by
                          simpa [List.getLast?_cons_cons] using hlast
                        simp only [List.length_cons] at hlen hseg
                        apply hstop lastT seg
                          (by simp only [List.length_cons]; omega) hlast'
                        simpa using hseg

/-- Root tree of the C4 example: contains only directory `x`. -/
def exRootX : GitTree := ⟨"R", [⟨"x", "040000", "tree", "X", []⟩]⟩

/-- Store of the C4 example: the `x` tree exists and is empty. -/
def exStoreX : Store := ⟨[("X", [])], [], [], none⟩

/-- C4: lenient path resolution returns a partial chain, never an error for
a missing segment. A successful resolution yields a chain of length between
1 and the segment count plus one, starting at the root; consecutive chain
elements are linked by a tree-typed entry for the corresponding segment; and
when the chain stops early, its last tree has no tree child for the next
segment. In particular `x/y/z` against a root containing only `x` resolves
to the chain `[root, x-tree]` of length 2, not an error. -/
theorem lenient_partial_resolution :
    (∀ (store : Store) (parts : List String) (root : GitTree)
       (chain : List GitTree),
       existingTreesForPath store root parts = .ok chain →
       1 ≤ chain.length ∧ chain.length ≤ parts.length + 1 ∧
       chain.head? = some root ∧
       (∀ i t t' seg, chain[i]? = some t → chain[i + 1]? = some t' →
         parts[i]? = some seg →
         ∃ e ∈ t.entries, e.type = "tree" ∧ e.path = seg ∧
           getTreeInStore store e.sha = some t') ∧
       (∀ lastT seg, chain.length ≤ parts.length →
         chain.getLast? = some lastT → parts[chain.length - 1]? = some seg →
         findTreeChild lastT.entries seg = none)) ∧
    existingTreesForPath exStoreX exRootX ["x", "y", "z"] =
      .ok [exRootX, ⟨"X", []⟩] ∧
    ([exRootX, (⟨"X", []⟩ : GitTree)]).length = 2 :=
  ⟨existingTreesForPath_spec, by rfl, by rfl⟩

/-- C4 witness: the general resolution bounds applied to the concrete
`x/y/z` example — the chain has length 2, within `1..(3 + 1)`, and starts at
the root. -/
theorem lenient_partial_resolution_witness :
    1 ≤ ([exRootX, (⟨"X", []⟩ : GitTree)]).length ∧
    ([exRootX, (⟨"X", []⟩ : GitTree)]).length ≤ 3 + 1 ∧
    ([exRootX, (⟨"X", []⟩ : GitTree)]).head? = some exRootX := by
  have h := lenient_partial_resolution.1 exStoreX ["x", "y", "z"] exRootX
    [exRootX, ⟨"X", []⟩] lenient_partial_resolution.2.1
  exact ⟨h.1, h.2.1, h.2.2.1⟩

theorem setChildEntry_sibling (seg childSha : String) :
    ∀ (es : List TreeEntry) (e : TreeEntry),
      e ∈ setChildEntry es seg childSha → e.path ≠ seg → e ∈ es := by
  intro es
  induction es with
  | nil =>
      intro e he hne
      simp only [setChildEntry, List.mem_singleton] at he
      subst he
      exact absurd rfl hne
  | cons e0 es ih =>
      intro e he hne
      rw [setChildEntry] at he
      by_cases h0 : e0.path = seg
      · rw [if_pos h0] at he
        rcases List.mem_cons.mp he with h | h
        · subst h
          exact absurd h0 (by simpa using hne)
        · exact List.mem_cons_of_mem _ h
      · rw [if_neg h0] at he
        rcases List.mem_cons.mp he with h | h
        · subst h
          exact List.mem_cons_self _ _
        · exact List.mem_cons_of_mem _ (ih e h hne)

theorem setChildEntry_target (seg childSha : String) :
    ∀ es : List TreeEntry, ∃ e ∈ setChildEntry es seg childSha,
      e.path = seg ∧ e.type = "tree" ∧ e.mode = "040000" ∧ e.sha = childSha := by
  intro es
  induction es with
  | nil =>
      exact ⟨⟨seg, "040000", "tree", childSha, []⟩, by simp [setChildEntry],
        rfl, rfl, rfl, rfl⟩
  | cons e0 es ih =>
      by_cases h0 : e0.path = seg
      · refine ⟨{ e0 with type := "tree", mode := "040000", sha := childSha },
          ?_, ?_⟩
        · simp [setChildEntry, h0]
        · exact ⟨by simpa using h0, rfl, rfl, rfl⟩
      · obtain ⟨e, he, hp⟩ := ih
        refine ⟨e, ?_, hp⟩
        rw [setChildEntry, if_neg h0]
        exact List.mem_cons_of_mem _ he

theorem createTreeForPathRev_requests (revParts : List String) :
    ∀ (c : GitTree) (rest : List GitTree) (s : GitState),
      rest.length = revParts.length →
      ∃ reqs : List (List (Option TreeEntry)),
        (createTreeForPathRev (c :: rest) revParts s).2.events =
          s.events ++ reqs.map Event.createTree ∧
        reqs.length = revParts.length ∧
        ∀ k parent seg, rest[k]? = some parent → revParts[k]? = some seg →
          ∃ childSha,
            reqs[k]? = some ((setChildEntry parent.entries seg childSha).map
              fun e => some (pick e)) ∧
            (k = 0 → childSha = c.sha) ∧
            (∀ j, k = j + 1 → ∀ prevReq, reqs[j]? = some prevReq →
              childSha = treeSha (prevReq.filterMap id)) := by
  induction revParts with
  | nil =>
      intro c rest s _
      refine ⟨[], by simp [createTreeForPathRev], rfl, ?_⟩
      intro k parent seg _ hs
      simp at hs
  | cons seg0 revParts ih =>
      intro c rest s hlen
      cases rest with
      | nil => simp at hlen
      | cons p rest' =>
          have hlen' : rest'.length = revParts.length := by simpa using hlen
          rw [createTreeForPathRev]
          simp only [List.headD_cons, List.drop_succ_cons, List.drop_zero,
            doCreateTree]
          obtain ⟨reqs', hev, hlenR, hcor⟩ := ih _ rest' _ hlen'
          refine ⟨((setChildEntry p.entries seg0 c.sha).map
              fun e => some (pick e)) :: reqs', ?_, by simp [hlenR], ?_⟩
          · rw [hev]
            simp
          · intro k parent seg hp hs
            cases k with
            | zero =>
                simp only [List.getElem?_cons_zero, Option.some.injEq] at hp hs
                subst hp
                subst hs
                refine ⟨c.sha, by simp, fun _ => rfl, ?_⟩
                intro j hj
                exact absurd hj (Nat.succ_ne_zero j).symm
            | succ k' =>
                simp only [List.getElem?_cons_succ] at hp hs
                obtain ⟨childSha, hreq, hzero, hsucc⟩ := hcor k' parent seg hp hs
                refine ⟨childSha, by simpa using hreq,
                  fun h0 => absurd h0 (Nat.succ_ne_zero k'), ?_⟩
                intro j hj prevReq hprev
                have hj' : j = k' := by omega
                rw [hj'] at hprev
                cases k' with
                | zero =>
                    simp only [List.getElem?_cons_zero, Option.some.injEq] at hprev
                    subst hprev
                    rw [hzero rfl]
                | succ j' =>
                    simp only [List.getElem?_cons_succ] at hprev
                    exact hsucc j' rfl prevReq hprev

/-- C1: tree rebuild preserves structural sharing. On a chain with one tree
per path segment plus the root — the finalized new leaf tree appended last —
the rebuild emits exactly one tree-creation request per path segment,
deepest segment first. Step `k` pairs the `k`-th deepest ancestor
(`trees.dropLast.reverse[k]`) with the `k`-th deepest segment
(`parts.reverse[k]`): its request is exactly that ancestor's entry set
restricted by `pick` to path/mode/type/sha, with the entry at the segment
(created fresh if absent) set to type `tree`, mode `040000` and sha equal to
the finalized child tree's sha — the appended new leaf's sha at the deepest
step, and at every later step the sha the store assigns to the tree created
by the previous request. Every entry off the segment is an entry of the old
parent, so all siblings keep their original sha and no tree off the path is
recreated. -/
theorem rebuild_structural_sharing (trees : List GitTree) (parts : List String)
    (s : GitState) (h : trees.length = parts.length + 1) :
    ∃ (newLeaf : GitTree) (reqs : List (List (Option TreeEntry))),
      trees.getLast? = some newLeaf ∧
      (createTreeForPath trees parts s).2.events =
        s.events ++ reqs.map Event.createTree ∧
      reqs.length = parts.length ∧
      ∀ k parent seg,
        trees.dropLast.reverse[k]? = some parent →
        parts.reverse[k]? = some seg →
        ∃ childSha,
          reqs[k]? = some ((setChildEntry parent.entries seg childSha).map
            fun e => some (pick e)) ∧
          (k = 0 → childSha = newLeaf.sha) ∧
          (∀ j, k = j + 1 → ∀ prevReq, reqs[j]? = some prevReq →
            childSha = treeSha (prevReq.filterMap id)) ∧
          (∀ e ∈ setChildEntry parent.entries seg childSha,
            e.path ≠ seg → e ∈ parent.entries) ∧
          (∃ e ∈ setChildEntry parent.entries seg childSha,
            e.path = seg ∧ e.type = "tree" ∧ e.mode = "040000" ∧
            e.sha = childSha) := by
  unfold createTreeForPath
  have hne : trees ≠ [] := by
    intro h0
    rw [h0] at h
    simp at h
  have hsplit : trees.reverse = trees.getLast hne :: trees.dropLast.reverse := by
    conv_lhs => rw [← List.dropLast_append_getLast hne]
    rw [List.reverse_append]
    simp
  rw [hsplit]
  obtain ⟨reqs, hev, hlenR, hcor⟩ := createTreeForPathRev_requests parts.reverse
    (trees.getLast hne) trees.dropLast.reverse s
    (by simp [List.length_reverse, List.length_dropLast, h])
  refine ⟨trees.getLast hne, reqs, List.getLast?_eq_getLast trees hne, hev,
    by simpa using hlenR, ?_⟩
  intro k parent seg hp hs
  obtain ⟨childSha, hreq, hzero, hsucc⟩ := hcor k parent seg hp hs
  exact ⟨childSha, hreq, hzero, hsucc,
    fun e he hne' => setChildEntry_sibling seg childSha parent.entries e he hne',
    setChildEntry_target seg childSha parent.entries⟩

/-- C1 witness: rebuilding the chain `[root, newLeaf]` along path `a` emits
exactly one request, pairing the root with segment `a` and a child sha that
is forced (by the `k = 0` clause) to be the new leaf's sha. -/
theorem rebuild_structural_sharing_witness :
    ∃ (newLeaf : GitTree) (reqs : List (List (Option TreeEntry))),
      ([⟨"R", [⟨"a", "040000", "tree", "A", ["sz"]⟩]⟩,
        (⟨"L", []⟩ : GitTree)]).getLast? = some newLeaf ∧
      (createTreeForPath [⟨"R", [⟨"a", "040000", "tree", "A", ["sz"]⟩]⟩,
          ⟨"L", []⟩] ["a"] ⟨⟨[], [], [], none⟩, []⟩).2.events =
        (⟨⟨[], [], [], none⟩, []⟩ : GitState).events ++
          reqs.map Event.createTree ∧
      reqs.length = (["a"] : List String).length ∧
      ∀ k parent seg,
        ([⟨"R", [⟨"a", "040000", "tree", "A", ["sz"]⟩]⟩,
          (⟨"L", []⟩ : GitTree)]).dropLast.reverse[k]? = some parent →
        (["a"] : List String).reverse[k]? = some seg →
        ∃ childSha,
          reqs[k]? = some ((setChildEntry parent.entries seg childSha).map
            fun e => some (pick e)) ∧
          (k = 0 → childSha = newLeaf.sha) ∧
          (∀ j, k = j + 1 → ∀ prevReq, reqs[j]? = some prevReq →
            childSha = treeSha (prevReq.filterMap id)) ∧
          (∀ e ∈ setChildEntry parent.entries seg childSha,
            e.path ≠ seg → e ∈ parent.entries) ∧
          (∃ e ∈ setChildEntry parent.entries seg childSha,
            e.path = seg ∧ e.type = "tree" ∧ e.mode = "040000" ∧
            e.sha = childSha) :=
  rebuild_structural_sharing
    [⟨"R", [⟨"a", "040000", "tree", "A", ["sz"]⟩]⟩, ⟨"L", []⟩] ["a"]
    ⟨⟨[], [], [], none⟩, []⟩ (by rfl)

theorem getTreeH_grows (store : Store) (heap : Heap) (cache : TreeCache)
    (sha : String) (j : Nat) (heap1 : Heap)
    (h : getTreeH store heap cache sha = some (j, heap1)) :
    ∃ t, heap1.objs = heap.objs ++ [t] ∧ j = heap.objs.length := by
  unfold getTreeH at h
  cases hl : lookupA cache sha with
  | some i =>
      simp only [hl, Heap.alloc, Option.some.injEq, Prod.mk.injEq] at h
      exact ⟨heap.get i, by rw [← h.2], h.1.symm⟩
  | none =>
      simp only [hl] at h
      cases hg : getTreeInStore store sha with
      | none => simp [hg] at h
      | some t =>
          simp only [hg, Heap.alloc, Option.some.injEq, Prod.mk.injEq] at h
          exact ⟨t, by rw [← h.2], h.1.symm⟩

theorem existingTreesForPathH_grows (store : Store) :
    ∀ (parts : List String) (heap : Heap) (cache : TreeCache) (rootId : Nat)
      (heap' : Heap) (cache' : TreeCache) (chain : List Nat),
      existingTreesForPathH store heap cache rootId parts =
        some (heap', cache', chain) →
      ∃ ext, heap'.objs = heap.objs ++ ext := by
  intro parts
  induction parts with
  | nil =>
      intro heap cache rootId heap' cache' chain h
      simp only [existingTreesForPathH, Option.some.injEq, Prod.mk.injEq] at h
      exact ⟨[], by rw [← h.1]; simp⟩
  | cons seg rest ih =>
      intro heap cache rootId heap' cache' chain h
      rw [existingTreesForPathH] at h
      cases hf : findTreeChild (heap.get rootId).entries seg with
      | none =>
          simp only [hf, Option.some.injEq, Prod.mk.injEq] at h
          exact ⟨[], by rw [← h.1]; simp⟩
      | some info =>
          simp only [hf] at h
          cases hg : getTreeH store heap
            (insertA cache (heap.get rootId).sha rootId) info.sha with
          | none => simp [hg] at h
          | some pr =>
              obtain ⟨nextId, heap1⟩ := pr
              simp only [hg] at h
              cases hrec : existingTreesForPathH store heap1
                (insertA cache (heap.get rootId).sha rootId) nextId rest with
              | none => simp [hrec] at h
              | some tr =>
                  obtain ⟨heap2, cache2, sub⟩ := tr
                  simp only [hrec, Option.some.injEq, Prod.mk.injEq] at h
                  obtain ⟨t, ht, _⟩ := getTreeH_grows store heap _ info.sha
                    nextId heap1 hg
                  obtain ⟨ext, hext⟩ := ih heap1 _ nextId heap2 cache2 sub hrec
                  refine ⟨[t] ++ ext, ?_⟩
                  rw [← h.1, hext, ht, List.append_assoc]

/-- Store of the C7 scenario: root `R` holds directory `a` (tree `A`), which
holds file `f` with content `1`. -/
def aliasStore : Store :=
  ⟨[("R", [⟨"a", "040000", "tree", "A", []⟩]),
    ("A", [⟨"f", "100644", "blob", "B1", []⟩])], [], [], none⟩

/-- Initial heap of the C7 scenario: the fetched root tree object, id 0. -/
def aliasHeap0 : Heap := ⟨[⟨"R", [⟨"a", "040000", "tree", "A", []⟩]⟩]⟩

/-- C7 counterexample: the claim that a tree object stored in the TreeCache
is never mutated after insertion is false. Resolving path `a` caches the
root object (id 0) and the `a` tree object (id 1); the rebuild then mutates
the root object in place — the heap cell of cached id 0 changes. -/
theorem treeCache_mutation_counterexample :
    ∃ heap1 cache chain heap2 rootId2,
      existingTreesForPathH aliasStore aliasHeap0 [] 0 ["a"] =
        some (heap1, cache, chain) ∧
      createNewTreeForPathH false [⟨"f", false, "2"⟩] heap1 chain ["a"] =
        some (heap2, rootId2) ∧
      ∃ sha i, lookupA cache sha = some i ∧ heap2.get i ≠ heap1.get i := by
  refine ⟨_, _, _, _, _, rfl, rfl, "R", 0, rfl, ?_⟩
  decide

theorem heapSet_fresh_preserves (objs : List GitTree) (x t : GitTree)
    (i : Nat) (hi : i < objs.length) :
    (Heap.set ⟨objs ++ [x]⟩ objs.length t).get i = Heap.get ⟨objs⟩ i := by
  show ((objs ++ [x]).set objs.length t).getD i defaultTree = objs.getD i defaultTree
  rw [List.getD_eq_getElem?_getD, List.getElem?_set_ne (by omega),
    List.getElem?_append_left hi, ← List.getD_eq_getElem?_getD]

/-- C7 amended: trees *served from* the cache are structurally independent
deep copies — a cache hit in `getTreeH` allocates a fresh object holding a
copy of the cached one, so mutating the served copy leaves the cached cell
unchanged — and the resolution phase itself never mutates an existing heap
cell (it only allocates). The cached originals are, however, aliased by the
resolution chain and mutated by the rebuild (the counterexample above), so
the blanket "never mutated after insertion" does not hold. -/
theorem treeCache_deep_copy_amended :
    (∀ (store : Store) (heap : Heap) (cache : TreeCache) (sha : String)
       (i : Nat), lookupA cache sha = some i →
       getTreeH store heap cache sha =
         some (heap.objs.length, ⟨heap.objs ++ [heap.get i]⟩) ∧
       (i < heap.objs.length →
         heap.objs.length ≠ i ∧
         ∀ t, (Heap.set ⟨heap.objs ++ [heap.get i]⟩ heap.objs.length t).get i =
           heap.get i)) ∧
    (∀ (store : Store) (parts : List String) (heap : Heap) (cache : TreeCache)
       (rootId : Nat) (heap' : Heap) (cache' : TreeCache) (chain : List Nat),
       existingTreesForPathH store heap cache rootId parts =
         some (heap', cache', chain) →
       ∀ j, j < heap.objs.length → heap'.get j = heap.get j) := by
  constructor
  · intro store heap cache sha i hl
    constructor
    · unfold getTreeH
      rw [hl]
      rfl
    · intro hi
      refine ⟨by omega, ?_⟩
      intro t
      have := heapSet_fresh_preserves heap.objs (heap.get i) t i hi
      simpa using this
  · intro store parts heap cache rootId heap' cache' chain h j hj
    obtain ⟨ext, hext⟩ := existingTreesForPathH_grows store parts heap cache
      rootId heap' cache' chain h
    show heap'.objs.getD j defaultTree = heap.objs.getD j defaultTree
    rw [hext, List.getD_eq_getElem?_getD, List.getElem?_append_left hj,
      ← List.getD_eq_getElem?_getD]

/-- C7 amended witness: at the concrete aliasing scenario, a cache hit on
`R` serves a fresh deep copy of cached object 0, and the resolution run
leaves cell 0 unchanged. -/
theorem treeCache_deep_copy_amended_witness :
    getTreeH aliasStore aliasHeap0 [("R", 0)] "R" =
      some (1, ⟨aliasHeap0.objs ++ [aliasHeap0.get 0]⟩) ∧
    ∀ t, (Heap.set ⟨aliasHeap0.objs ++ [aliasHeap0.get 0]⟩ 1 t).get 0 =
      aliasHeap0.get 0 := by
  have h := treeCache_deep_copy_amended.1 aliasStore aliasHeap0 [("R", 0)]
    "R" 0 (by rfl)
  exact ⟨h.1, (h.2 (by decide)).2⟩
